import Mathlib

/-!
Verification development for `scripts/parse_commits.py`.

Python strings are modelled as `List Char` (`PyStr`); `datetime` values are
modelled as `Int` seconds on the proleptic Gregorian time scale used by
CPython (`datetime.toordinal`), so that `datetime` subtraction corresponds to
`Int` subtraction.  Machine integers do not occur in the source (Python ints
are unbounded), so `Nat`/`Int` are exact models.
-/

/-- Python `str` is modelled as a list of characters. -/
abbrev PyStr := List Char

/-- The custom field separator used in the git log format string (`∞`). -/
def sepChar : Char := '∞'

/-- Characters stripped by the Python `str.strip()` method (ASCII whitespace). -/
def isPySpace (c : Char) : Bool :=
  c = ' ' || c = '\t' || c = '\n' || c = '\r' || c = '\x0b' || c = '\x0c'

/-- Python `str.strip()`: drop leading and trailing whitespace. -/
def pytrim (l : PyStr) : PyStr :=
  ((l.dropWhile isPySpace).reverse.dropWhile isPySpace).reverse

/-- Python `str.startswith`: does the second string start with the first. -/
def startsWithL : PyStr → PyStr → Bool
  | [], _ => true
  | _ :: _, [] => false
  | p :: ps, c :: cs => p = c && startsWithL ps cs

/-- Python substring test `pat in l`. -/
def hasSub (pat : PyStr) : PyStr → Bool
  | [] => startsWithL pat []
  | c :: cs => startsWithL pat (c :: cs) || hasSub pat cs

/-- Python `str.split(sep)` for a one-character separator. -/
def splitCh (sep : Char) : PyStr → List PyStr
  | [] => [[]]
  | c :: cs =>
    match splitCh sep cs with
    | [] => [[]]
    | r :: rs => if c = sep then [] :: r :: rs else (c :: r) :: rs

/-- Python newline join over a list of lines. -/
def joinNL : List PyStr → PyStr
  | [] => []
  | [x] => x
  | x :: y :: rest => x ++ '\n' :: joinNL (y :: rest)

/-- ASCII decimal digit test (`[0-9]`). -/
def isDigitC (c : Char) : Bool := '0' ≤ c && c ≤ '9'

/-- Numeric value of a decimal digit character. -/
def dval (c : Char) : Nat := c.toNat - '0'.toNat

/-- The decimal digit character for `n % 10`. -/
def dchar (n : Nat) : Char := Char.ofNat (48 + n % 10)

/-- Value of a nonempty all-digit string (helper for Python `int(...)`). -/
def digitsVal (l : PyStr) : Option Int :=
  if l ≠ [] && l.all isDigitC then
    some (l.foldl (fun acc c => 10 * acc + (dval c : Int)) 0)
  else none

/-- Python `int(s)` on the strings reachable in this program: optional sign
followed by decimal digits, surrounding whitespace ignored. -/
def pyInt (l : PyStr) : Option Int :=
  match pytrim l with
  | [] => none
  | c :: cs =>
    if c = '+' then digitsVal cs
    else if c = '-' then (digitsVal cs).map (fun v => -v)
    else digitsVal (c :: cs)

/-- Gregorian leap-year test. -/
def isLeap (y : Nat) : Bool := (y % 4 = 0 && y % 100 ≠ 0) || y % 400 = 0

/-- Number of days in month `m` of year `y` (m ∈ 1..12). -/
def daysInMonth (y m : Nat) : Nat :=
  if m = 2 then (if isLeap y then 29 else 28)
  else if m = 4 || m = 6 || m = 9 || m = 11 then 30
  else 31

/-- Days in the months strictly before month `m` of year `y`. -/
def daysBeforeMonth (y m : Nat) : Nat :=
  [0, 0, 31, 59, 90, 120, 151, 181, 212, 243, 273, 304, 334].getD m 0
    + (if 2 < m && isLeap y then 1 else 0)

/-- Days in the years strictly before year `y` (y ≥ 1);
`daysBeforeYear 1 = 0`, matching CPython where `date(1,1,1).toordinal() = 1`. -/
def daysBeforeYear (y : Nat) : Nat :=
  365 * (y - 1) + (y - 1) / 4 + (y - 1) / 400 - (y - 1) / 100

/-- CPython `date(y, m, d).toordinal()`. -/
def toOrdinal (y m d : Nat) : Nat := daysBeforeYear y + daysBeforeMonth y m + d

/-- The instant `y-m-d h:mi:s` as seconds on the ordinal time scale. -/
def toSecs (y m d h mi s : Nat) : Int :=
  ((toOrdinal y m d - 1) * 86400 + h * 3600 + mi * 60 + s : Nat)

/-- Largest representable `datetime` instant, `9999-12-31 23:59:59`
(CPython raises `OverflowError` past `datetime.max`; fractional seconds do
not occur in this model). -/
def maxDatetimeSecs : Int := toSecs 9999 12 31 23 59 59

/-- Model of `datetime.fromisoformat`, restricted to the 19-character shape
that the git log emits; other ISO-8601 shapes accepted by CPython are treated
as parse failures (they never occur in the inputs reasoned about here). -/
def fromiso (l : PyStr) : Option Int :=
  match l with
  | [y1, y2, y3, y4, s1, m1, m2, s2, d1, d2, s3, h1, h2, s4, n1, n2, s5, c1, c2] =>
    if s1 = '-' && s2 = '-' && s3 = ' ' && s4 = ':' && s5 = ':'
        && [y1, y2, y3, y4, m1, m2, d1, d2, h1, h2, n1, n2, c1, c2].all isDigitC then
      let y := dval y1 * 1000 + dval y2 * 100 + dval y3 * 10 + dval y4
      let mo := dval m1 * 10 + dval m2
      let d := dval d1 * 10 + dval d2
      let h := dval h1 * 10 + dval h2
      let mi := dval n1 * 10 + dval n2
      let s := dval c1 * 10 + dval c2
      if 1 ≤ y && 1 ≤ mo && mo ≤ 12 && 1 ≤ d && d ≤ daysInMonth y mo
          && h ≤ 23 && mi ≤ 59 && s ≤ 59 then
        some (toSecs y mo d h mi s)
      else none
    else none
  | _ => none

/-- Python rsplit at the last space, when it yields two parts.  The result
`none` models the single-part case, where tuple unpacking then raises. -/
def rsplitSpace (l : PyStr) : Option (PyStr × PyStr) :=
  let revTail := l.reverse.takeWhile (fun c => ¬ c = ' ')
  let rest := l.reverse.dropWhile (fun c => ¬ c = ' ')
  match rest with
  | [] => none
  | _ :: front => some (front.reverse, revTail.reverse)

/-- Source function `parse_timestamp`: strip, detect an offset by testing
whether the string contains a space followed by a plus or by a minus, split
at the last space, parse the naive part with `fromisoformat`, read the sign
and the `HHMM` digits, build the `timezone` (valid only strictly between
minus 24 hours and plus 24 hours), convert to UTC and drop the offset.  Any
failure, including `astimezone` overflowing the representable `datetime`
range, yields `none`. -/
def parse_timestamp (l0 : PyStr) : Option Int :=
  let l := pytrim l0
  if hasSub [' ', '+'] l || hasSub [' ', '-'] l then
    match rsplitSpace l with
    | none => none
    | some (dtPart, tzPart) =>
      match fromiso dtPart with
      | none => none
      | some naive =>
        let sign : Int := if startsWithL ['+'] tzPart then 1 else -1
        let tzStr := tzPart.drop 1
        match pyInt (tzStr.take 2), pyInt (tzStr.drop 2) with
        | some h, some m =>
          let offMin : Int := sign * (h * 60 + m)
          if -1440 < offMin && offMin < 1440 then
            let utc := naive - offMin * 60
            if 0 ≤ utc && utc ≤ maxDatetimeSecs then some utc else none
          else none
        | _, _ => none
  else fromiso l

/-- Characters matched by the regex class `[^,\s]` used in the source. -/
def isTokChar (c : Char) : Bool := ¬ c = ',' && !isPySpace c

/-- The literal `"HEAD -> "`. -/
def headArrowPat : PyStr := "HEAD -> ".data

/-- One anchored attempt of the regex `HEAD -> ([^,\s]+)`: match the
literal here, then a maximal nonempty `[^,\s]+` run. -/
def headArrowAt (l : PyStr) : Option PyStr :=
  if startsWithL headArrowPat l then
    let tok := (l.drop headArrowPat.length).takeWhile isTokChar
    if tok = [] then none else some tok
  else none

/-- Model of the regex search for `HEAD -> ([^,\s]+)`: the leftmost
successful anchor wins, as in `re.search`. -/
def headArrowScan : PyStr → Option PyStr
  | [] => none
  | c :: cs =>
    match headArrowAt (c :: cs) with
    | some tok => some tok
    | none => headArrowScan cs

/-- The literal `"origin/"`. -/
def originPat : PyStr := "origin/".data

/-- One anchored attempt of `origin/([^,\s]+)` returning the captured name
when it is not `HEAD`, `main` or `master`. -/
def originAt (l : PyStr) : Option PyStr :=
  if startsWithL originPat l then
    let tok := (l.drop originPat.length).takeWhile isTokChar
    if tok = [] then none
    else if tok = "HEAD".data || tok = "main".data || tok = "master".data then none
    else some tok
  else none

/-- Model of the findall over `origin/([^,\s]+)` followed by the loop in
the source returning the first capture not in the list HEAD, main, master.
Scanning every start position is equivalent to the non-overlapping scan of
`re.findall` here: an excluded capture (HEAD, main or master) contains no
`origin/`, so the next occurrence of the literal never starts inside a
skipped match. -/
def originScan : PyStr → Option PyStr
  | [] => none
  | c :: cs =>
    match originAt (c :: cs) with
    | some tok => some tok
    | none => originScan cs

/-- Acceptability of a comma-token to the local-branch loop of the source:
not starting with `origin/` and not one of `refs/stash`, the empty string,
`main`, or `master`. -/
def localTokOk (p : PyStr) : Bool :=
  !startsWithL originPat p
    && ¬ p = "refs/stash".data && ¬ p = [] && ¬ p = "main".data && ¬ p = "master".data

/-- Third strategy of the source: split on commas, strip each part, return
the first acceptable part. -/
def localTokenScan (refs : PyStr) : Option PyStr :=
  ((splitCh ',' refs).map pytrim).find? localTokOk

/-- Source function `extract_branch_from_refs`, strategy by strategy:
empty string short-circuit, strip, `HEAD -> ` capture, first acceptable
`origin/<name>` capture, first acceptable comma-token, then the substring
fallbacks for `main` and `master`. -/
def extract_branch_from_refs (refs0 : PyStr) : Option PyStr :=
  if refs0 = [] then none
  else
    let refs := pytrim refs0
    match (if hasSub headArrowPat refs then headArrowScan refs else none) with
    | some b => some b
    | none =>
      match (if hasSub originPat refs then originScan refs else none) with
      | some b => some b
      | none =>
        match localTokenScan refs with
        | some b => some b
        | none =>
          if hasSub "origin/main".data refs || hasSub "main".data refs then
            some "main".data
          else if hasSub "origin/master".data refs || hasSub "master".data refs then
            some "master".data
          else none

/-- The literal `"Merge pull request #"`. -/
def prPat : PyStr := "Merge pull request #".data

/-- The literal `" from "`. -/
def fromPat : PyStr := " from ".data

/-- The apostrophe character, code point 39. -/
def quoteChar : Char := Char.ofNat 39

/-- The literal consisting of the text Merge branch, a space, and an
opening apostrophe. -/
def mbPat : PyStr := "Merge branch ".data ++ [quoteChar]

/-- One anchored attempt of the regex
`Merge pull request #\d+ from [^/]+/(.+)`:
the literal, a maximal nonempty digit run (maximality is exact since
`" from "` starts with a non-digit), the literal `" from "`, a maximal
nonempty `[^/]+` run, a `/`, then the greedy nonempty `(.+)` capture
(up to a newline). -/
def mergePRAt (l : PyStr) : Option PyStr :=
  if startsWithL prPat l then
    let r1 := l.drop prPat.length
    let digs := r1.takeWhile isDigitC
    if digs = [] then none
    else
      let r2 := r1.drop digs.length
      if startsWithL fromPat r2 then
        let r3 := r2.drop fromPat.length
        let owner := r3.takeWhile (fun c => ¬ c = '/')
        if owner = [] then none
        else
          let r4 := r3.drop (owner.length + 1)
          let grp := r4.takeWhile (fun c => ¬ c = '\n')
          if owner.length < r3.length && ¬ grp = [] then some grp else none
      else none
  else none

/-- Leftmost match of the pull-request pattern. -/
def mergePRScan : PyStr → Option PyStr
  | [] => none
  | c :: cs =>
    match mergePRAt (c :: cs) with
    | some g => some g
    | none => mergePRScan cs

/-- One anchored attempt of the quoted merge-branch regex: the literal,
a maximal nonempty run of non-apostrophe characters, and the closing
apostrophe (which exists iff the run did not reach the end). -/
def mergeBranchAt (l : PyStr) : Option PyStr :=
  if startsWithL mbPat l then
    let r := l.drop mbPat.length
    let grp := r.takeWhile (fun c => ¬ c = quoteChar)
    if ¬ grp = [] && grp.length < r.length then some grp else none
  else none

/-- Leftmost match of the quoted merge-branch pattern. -/
def mergeBranchScan : PyStr → Option PyStr
  | [] => none
  | c :: cs =>
    match mergeBranchAt (c :: cs) with
    | some g => some g
    | none => mergeBranchScan cs

/-- Source function `extract_branch_from_merge_message`: try the
pull-request pattern, then the quoted merge-branch pattern, stripping the
captured group. -/
def extract_branch_from_merge_message (m : PyStr) : Option PyStr :=
  match mergePRScan m with
  | some g => some (pytrim g)
  | none =>
    match mergeBranchScan m with
    | some g => some (pytrim g)
    | none => none

/-- One parsed history entry (the dict built by `parse_commits`, after the
attribution pass has added the `branch` key).  `parse_commits` builds records
with a placeholder empty `branch`; `determine_commit_branches` overwrites the
field of every record. -/
structure CommitRecord where
  hash : PyStr
  timestamp : Int
  message : PyStr
  refs : PyStr
  files : List PyStr
  branch : PyStr
deriving DecidableEq, Repr

/-- The derived life-window of a feature branch built during attribution. -/
structure BranchPeriod where
  branch : PyStr
  merge_time : Int
  merge_hash : PyStr
deriving DecidableEq, Repr

/-- The trunk name `"main"`. -/
def mainStr : PyStr := "main".data

/-- Model of the Python sorted-by-timestamp call.  Python sorting is
stable; any two stable sorts by the same key coincide, so insertion sort
(which inserts each element before the first strictly-later element of the
already-sorted tail, hence keeps the original order of equal keys) is an
exact model. -/
def sortByTimestamp (l : List CommitRecord) : List CommitRecord :=
  List.insertionSort (fun a b => a.timestamp ≤ b.timestamp) l

/-- Model of the stable in-place sort of the period list by merge time. -/
def sortPeriods (l : List BranchPeriod) : List BranchPeriod :=
  List.insertionSort (fun a b => a.merge_time ≤ b.merge_time) l

/-- The merge-discovery test of the first pass: the message starts with
`Merge` (the second disjunct in the source, which looks for a MERGE marker
in a `type` key, is always false because the parser never sets that key),
and the message yields a branch name that is truthy — the guard in the
source is Python truthiness, so an extracted name that strips to the empty
string registers nothing. -/
def mergeBranchOf (c : CommitRecord) : Option PyStr :=
  if startsWithL "Merge".data c.message then
    match extract_branch_from_merge_message c.message with
    | some b => if b = [] then none else some b
    | none => none
  else none

/-- The key set of the `merge_branches` dict: hashes of records that qualify
as merge records with an extracted branch (only membership is ever read). -/
def mergeHashes (sorted : List CommitRecord) : List PyStr :=
  (sorted.filter (fun c => (mergeBranchOf c).isSome)).map (fun c => c.hash)

/-- The `branch_periods` list as accumulated during the first pass (in the
order of the timestamp-sorted traversal). -/
def branchPeriods (sorted : List CommitRecord) : List BranchPeriod :=
  sorted.filterMap (fun c =>
    (mergeBranchOf c).map (fun b => BranchPeriod.mk b c.timestamp c.hash))

/-- The denylist test: branch names containing `cursor/` or
`integrate-checklists` are skipped as period candidates. -/
def skipBranch (b : PyStr) : Bool :=
  hasSub "cursor/".data b || hasSub "integrate-checklists".data b

/-- The period-scanning loop of the second pass: walk the sorted periods,
skip denylisted branches, and return the first branch whose merge time is
between 0 and 2 hours (inclusive) after the commit time; default `main`. -/
def scanPeriods (t : Int) : List BranchPeriod → PyStr
  | [] => mainStr
  | p :: ps =>
    if skipBranch p.branch then scanPeriods t ps
    else if 0 ≤ p.merge_time - t ∧ p.merge_time - t ≤ 7200 then p.branch
    else scanPeriods t ps

/-- The per-record assignment of the second pass: explicit refs first, then
`main` for merge records found in the first pass, then the period scan. -/
def assignBranch (mh : List PyStr) (bp : List BranchPeriod) (c : CommitRecord) : PyStr :=
  match extract_branch_from_refs c.refs with
  | some b => b
  | none => if mh.contains c.hash then mainStr else scanPeriods c.timestamp bp

/-- Source function `determine_commit_branches`.  The Python function
mutates each record dict in place through the timestamp-sorted view; since
the new `branch` of each record depends only on the fields of that record
and on the (order-independent) dict-key set and the sorted period list, the
in-place pass is the map below over the collection in its original order. -/
def determine_commit_branches (commits : List CommitRecord) : List CommitRecord :=
  let sorted := sortByTimestamp commits
  let mh := mergeHashes sorted
  let bp := sortPeriods (branchPeriods sorted)
  commits.map (fun c => { c with branch := assignBranch mh bp c })

/-- The inner accumulation loop of `parse_commits`: skip blank lines, stop
(without consuming) at a line that contains the separator and whose first
separator-field has exactly 40 characters, and append any other stripped
line to the file list.  Returns the files and the unconsumed remainder. -/
def collectFiles : List PyStr → List PyStr × List PyStr
  | [] => ([], [])
  | l :: rest =>
    let s := pytrim l
    if s = [] then collectFiles rest
    else if s.contains sepChar && ((splitCh sepChar s).getD 0 []).length = 40 then
      ([], l :: rest)
    else
      let pr := collectFiles rest
      (s :: pr.1, pr.2)

/-- The outer loop of `parse_commits`, with explicit fuel standing for the
loop-variant of the Python `while`: every iteration consumes at least one
line, so `fuel = lines.length` (supplied by `parseLines`) never runs out. -/
def parseLinesF : Nat → List PyStr → List CommitRecord
  | 0, _ => []
  | _ + 1, [] => []
  | fuel + 1, l :: rest =>
    let line := pytrim l
    if line = [] then parseLinesF fuel rest
    else if line.contains sepChar then
      let parts := splitCh sepChar line
      if 3 ≤ parts.length then
        match parse_timestamp (parts.getD 1 []) with
        | none => parseLinesF fuel rest
        | some ts =>
          let pr := collectFiles rest
          CommitRecord.mk (parts.getD 0 []) ts (parts.getD 2 [])
              (if 3 < parts.length then parts.getD 3 [] else []) pr.1 []
            :: parseLinesF fuel pr.2
      else parseLinesF fuel rest
    else parseLinesF fuel rest

/-- The header/file-list scan of `parse_commits` over the split lines. -/
def parseLines (lines : List PyStr) : List CommitRecord :=
  parseLinesF lines.length lines

/-- Source function `parse_commits`, taking the raw log text as input (the
out-of-scope `get_git_log_data` collaborator returns `""` on command
failure, so the failure path coincides with empty input). -/
def parse_commits (raw : PyStr) : List CommitRecord :=
  if raw = [] then []
  else determine_commit_branches (parseLines (splitCh '\n' (pytrim raw)))

/-- Python `str(n)` for an integer. -/
def intToStr (n : Int) : PyStr :=
  if n < 0 then '-' :: Nat.toDigits 10 n.natAbs else Nat.toDigits 10 n.natAbs

/-- Python `f"{n:02d}"`: zero-pad to two characters. -/
def intPad2 (n : Int) : PyStr :=
  if 0 ≤ n && n < 10 then '0' :: intToStr n else intToStr n

/-- Python `.lower()` (ASCII case folding suffices for this source). -/
def lowerL (l : PyStr) : PyStr := l.map Char.toLower

/-- The per-record block built by the loop body of `format_timeline`:
the time line (the fixed literal when the record equals `commits[0]` under
Python `dict` value equality, otherwise elapsed `HH:MM` and the delta in
minutes, all floor-divided as in the source), the commit line with the
`[MERGE]` flag, the branch line, message, and indented file lines. -/
def entryFor (first : CommitRecord) (start prev : Int) (c : CommitRecord) : List PyStr :=
  let tsec := c.timestamp - start
  let hours := Int.fdiv tsec 3600
  let minutes := Int.fdiv (Int.fmod tsec 3600) 60
  let dsec := c.timestamp - prev
  let dh := Int.fdiv dsec 3600
  let dm := Int.fdiv (Int.fmod dsec 3600) 60
  let timeStr :=
    if c = first then "time: 00:00".data
    else
      "time: ".data ++ intPad2 hours ++ ':' :: intPad2 minutes
        ++ "  (+".data ++ intToStr (dh * 60 + dm) ++ " mins)".data
  let isMerge := startsWithL "Merge".data c.message || hasSub "merge".data (lowerL c.message)
  let ctype := if isMerge then " [MERGE]".data else []
  timeStr :: ("commit: ".data ++ c.hash ++ ctype) :: ("branch: ".data ++ c.branch)
    :: [] :: c.message :: []
    :: (c.files.map (fun f => ' ' :: ' ' :: f)) ++ [[]]

/-- The rendering loop: one block per record, threading `prev_time`. -/
def renderBlocks (first : CommitRecord) (start : Int) : Int → List CommitRecord → List (List PyStr)
  | _, [] => []
  | prev, c :: cs => entryFor first start prev c :: renderBlocks first start c.timestamp cs

/-- The body of `format_timeline` after `parse_commits()` returns: sort by
timestamp, emit the fixed report for an empty collection, otherwise join the
flattened blocks with newlines (`result.extend` builds the flat list). -/
def format_timeline_records (commits0 : List CommitRecord) : PyStr :=
  match sortByTimestamp commits0 with
  | [] => "No commits found".data
  | first :: rest =>
    joinNL ((renderBlocks first first.timestamp first.timestamp (first :: rest)).flatten)

/-- Source function `format_timeline`, as a function of the raw log text. -/
def format_timeline (raw : PyStr) : PyStr :=
  format_timeline_records (parse_commits raw)

/-- The qualifying-period test used in the claims: not denylisted, and the
merge happens between 0 and 7200 seconds (inclusive) after the commit. -/
def periodOk (t : Int) (p : BranchPeriod) : Bool :=
  !skipBranch p.branch && decide (0 ≤ p.merge_time - t ∧ p.merge_time - t ≤ 7200)

instance : IsTotal BranchPeriod (fun a b => a.merge_time ≤ b.merge_time) :=
  ⟨fun a b => Int.le_total a.merge_time b.merge_time⟩

instance : IsTrans BranchPeriod (fun a b => a.merge_time ≤ b.merge_time) :=
  ⟨fun _ _ _ => Int.le_trans⟩

instance : IsTotal CommitRecord (fun a b => a.timestamp ≤ b.timestamp) :=
  ⟨fun a b => Int.le_total a.timestamp b.timestamp⟩

instance : IsTrans CommitRecord (fun a b => a.timestamp ≤ b.timestamp) :=
  ⟨fun _ _ _ => Int.le_trans⟩

def recA : CommitRecord := CommitRecord.mk "a".data 36000 "work".data [] [] []

def recB : CommitRecord := CommitRecord.mk "b".data 41400 "Merge pull request #1 from u/feat".data [] [] []

def recC : CommitRecord := CommitRecord.mk "c".data 25200 "setup".data [] [] []

def recM : CommitRecord := CommitRecord.mk "mh".data 0 "Merge pull request #12 from alice/fix-bug".data [] [] []

instance : IsAntisymm CommitRecord (fun a b => a.timestamp < b.timestamp) :=
  ⟨fun _ _ h1 h2 => absurd (Int.lt_trans h1 h2) (lt_irrefl _)⟩

def mrg1 : CommitRecord := CommitRecord.mk "m1".data 100 "Merge pull request #1 from u/alpha".data [] [] []

def mrg2 : CommitRecord := CommitRecord.mk "m2".data 100 "Merge pull request #2 from u/beta".data [] [] []

def plainC : CommitRecord := CommitRecord.mk "cc".data 100 "x".data [] [] []

/-- The time line demanded by the specification: the fixed literal for (a
record equal to) the first record, otherwise the elapsed time since the
start truncated to whole hours and minutes, plus the delta from the previous
record truncated to whole minutes.  (The claim says the literal appears
exactly once, for the very first record; the first-record comparison in the
code is Python dict value equality, so the amended form is stated for every
record equal to the first. -/
def claimTimeStr (first : CommitRecord) (start prev : Int) (c : CommitRecord) : PyStr :=
  if c = first then "time: 00:00".data
  else
    "time: ".data ++ intPad2 (Int.fdiv (c.timestamp - start) 3600)
      ++ ':' :: intPad2 (Int.fdiv (Int.fmod (c.timestamp - start) 3600) 60)
      ++ "  (+".data ++ intToStr (Int.fdiv (c.timestamp - prev) 60) ++ " mins)".data

/-- The specified sequence of time lines, threading the timestamp of the
previous record. -/
def claimTimeLines (first : CommitRecord) (start : Int) : Int → List CommitRecord → List PyStr
  | _, [] => []
  | prev, c :: cs => claimTimeStr first start prev c :: claimTimeLines first start c.timestamp cs

def dupRec : CommitRecord := CommitRecord.mk "abc".data 0 "m".data [] [] mainStr

/-- The ref-extraction rule exactly as the specification words it: five
prioritized strategies tried in order on the stripped refs string — the name
after `HEAD -> `; the first `origin/<name>` whose name is not excluded; the
first acceptable comma-separated (stripped) token; `main` if any token
contains `main`; `master` if any token contains `master`; otherwise no
result. -/
def refsStrategyChain (refs : PyStr) : Option PyStr :=
  let r := pytrim refs
  match headArrowScan r with
  | some b => some b
  | none =>
    match originScan r with
    | some b => some b
    | none =>
      match localTokenScan r with
      | some b => some b
      | none =>
        if (splitCh ',' r).any (fun t => hasSub "main".data t) then some mainStr
        else if (splitCh ',' r).any (fun t => hasSub "master".data t) then some "master".data
        else none

/-- The naive part `YYYY-MM-DD HH:MM:SS` of a timestamp string, built from
its numeric components. -/
def mkDtChars (y mo d h mi s : Nat) : PyStr :=
  [dchar (y / 1000), dchar (y / 100), dchar (y / 10), dchar y, '-',
   dchar (mo / 10), dchar mo, '-', dchar (d / 10), dchar d, ' ',
   dchar (h / 10), dchar h, ':', dchar (mi / 10), dchar mi, ':',
   dchar (s / 10), dchar s]

/-- The offset part `±HHMM` of a timestamp string. -/
def tzChars (sgn : Bool) (oh om : Nat) : PyStr :=
  (if sgn then '+' else '-') :: dchar (oh / 10) :: dchar oh :: dchar (om / 10) :: [dchar om]

/-- A full timestamp string `YYYY-MM-DD HH:MM:SS ±HHMM`. -/
def mkTsChars (y mo d h mi s : Nat) (sgn : Bool) (oh om : Nat) : PyStr :=
  mkDtChars y mo d h mi s ++ ' ' :: tzChars sgn oh om

/-- The period-scanning loop assigns the branch of the first qualifying
period, in list order, defaulting to `main`. -/
theorem scanPeriods_eq_find (t : Int) (ps : List BranchPeriod) :
    scanPeriods t ps =
      match ps.find? (periodOk t) with
      | some p => p.branch
      | none => mainStr := by
  induction ps with
  | nil => rfl
  | cons p ps ih =>
    rw [List.find?_cons]
    simp only [scanPeriods]
    by_cases hskip : skipBranch p.branch = true
    · have hok : periodOk t p = false := by simp [periodOk, hskip]
      rw [if_pos hskip, hok, ih]
    · have hskip' : skipBranch p.branch = false := by
        revert hskip; cases skipBranch p.branch <;> simp
      by_cases hwin : 0 ≤ p.merge_time - t ∧ p.merge_time - t ≤ 7200
      · have hok : periodOk t p = true := by simp [periodOk, hskip', hwin]
        rw [if_neg hskip, if_pos hwin, hok]
      · have hok : periodOk t p = false := by
          simp only [periodOk, hskip', Bool.not_false, Bool.true_and, decide_eq_false_iff_not]
          exact hwin
        rw [if_neg hskip, if_neg hwin, hok, ih]

/-- Positional view of `determine_commit_branches`: each record keeps its
place and only the `branch` field is recomputed. -/
theorem determine_getElem (cs : List CommitRecord) (i : Nat) :
    (determine_commit_branches cs)[i]? =
      (cs[i]?).map (fun c => { c with branch := assignBranch (mergeHashes (sortByTimestamp cs)) (sortPeriods (branchPeriods (sortByTimestamp cs))) c }) := by
  simp [determine_commit_branches]

theorem mergeHashes_contains_of_mem {c : CommitRecord} {l : List CommitRecord}
    (hc : c ∈ l) (hm : (mergeBranchOf c).isSome) :
    (mergeHashes l).contains c.hash = true := by
  have : c.hash ∈ mergeHashes l :=
    List.mem_map.mpr ⟨c, List.mem_filter.mpr ⟨hc, hm⟩, rfl⟩
  exact List.elem_eq_true_of_mem this

/-- C2: in the assignment pass, a record whose refs yield no branch and
whose hash was not registered by the merge-discovery pass (registration
requires a truthy, hence nonempty, extracted name, so merge records whose
extraction strips to the empty string fall under this theorem exactly as
they fall through in the program) is assigned the branch of the first
period, scanned in ascending merge-time order (the period list is sorted
ascending, first conjunct), that is not denylisted and whose merge time is
0 to 7200 seconds (inclusive) after the commit time; if no period
qualifies the record is assigned `main`.  The witness
instantiates the two examples of the claim: a refs-less commit 90 minutes
before the merge of branch feat gets feat, and one 4.5 hours before it
gets main. -/
theorem window_assignment_first_qualifying_period :
    (∀ ps : List BranchPeriod,
      List.Sorted (fun a b : BranchPeriod => a.merge_time ≤ b.merge_time) (sortPeriods ps))
    ∧ (∀ (cs : List CommitRecord) (i : Nat) (c : CommitRecord),
      cs[i]? = some c →
      extract_branch_from_refs c.refs = none →
      (mergeHashes (sortByTimestamp cs)).contains c.hash = false →
      (determine_commit_branches cs)[i]? =
        some { c with branch :=
          match (sortPeriods (branchPeriods (sortByTimestamp cs))).find? (periodOk c.timestamp) with
          | some p => p.branch
          | none => mainStr }) := by
  constructor
  · intro ps
    exact List.sorted_insertionSort _ ps
  · intro cs i c hc hrefs hmh
    rw [determine_getElem, hc, Option.map_some']
    have hb : assignBranch (mergeHashes (sortByTimestamp cs)) (sortPeriods (branchPeriods (sortByTimestamp cs))) c = scanPeriods c.timestamp (sortPeriods (branchPeriods (sortByTimestamp cs))) := by
      unfold assignBranch
      rw [hrefs, hmh]
      rfl
    rw [hb, scanPeriods_eq_find]

theorem window_assignment_first_qualifying_period_witness :
    (determine_commit_branches [recC, recA, recB])[1]? = some { recA with branch := "feat".data }
    ∧ (determine_commit_branches [recC, recA, recB])[0]? = some { recC with branch := mainStr } := by
  constructor
  · rw [window_assignment_first_qualifying_period.2 [recC, recA, recB] 1 recA rfl rfl (by decide)]
    decide
  · rw [window_assignment_first_qualifying_period.2 [recC, recA, recB] 0 recC rfl rfl (by decide)]
    decide

/-- C4: for every merge record (message beginning with the literal word
Merge) from which a branch name is successfully extracted — successful in
the source means the extracted, stripped name is truthy, hence nonempty —
and whose refs yield no branch, the extracted name becomes the branch of a
BranchPeriod carrying the merge time and hash of the record, and the record
itself is assigned branch `main`.  The witness instantiates the example of
the claim: the message Merge pull request number 12 from alice slash
fix-bug yields the period branch fix-bug and the record branch `main`. -/
theorem merge_record_yields_period_and_main :
    ∀ (cs : List CommitRecord) (i : Nat) (c : CommitRecord) (b : PyStr),
      cs[i]? = some c →
      startsWithL "Merge".data c.message = true →
      extract_branch_from_merge_message c.message = some b →
      b ≠ [] →
      extract_branch_from_refs c.refs = none →
      (BranchPeriod.mk b c.timestamp c.hash ∈ branchPeriods (sortByTimestamp cs))
      ∧ (determine_commit_branches cs)[i]? = some { c with branch := mainStr } := by
  intro cs i c b hc hmsg hext hne hrefs
  have hcmem : c ∈ cs := List.getElem?_mem hc
  have hsorted : c ∈ sortByTimestamp cs :=
    (List.perm_insertionSort _ cs).mem_iff.mpr hcmem
  have hmb : mergeBranchOf c = some b := by simp [mergeBranchOf, hmsg, hext, hne]
  constructor
  · exact List.mem_filterMap.mpr ⟨c, hsorted, by rw [hmb]; rfl⟩
  · rw [determine_getElem, hc, Option.map_some']
    have hcontains := mergeHashes_contains_of_mem hsorted (by rw [hmb]; rfl)
    unfold assignBranch
    rw [hrefs, hcontains]
    rfl

theorem merge_record_yields_period_and_main_witness :
    (BranchPeriod.mk "fix-bug".data 0 "mh".data ∈ branchPeriods (sortByTimestamp [recM]))
    ∧ (determine_commit_branches [recM])[0]? = some { recM with branch := mainStr } :=
  merge_record_yields_period_and_main [recM] 0 recM "fix-bug".data rfl (by decide) (by decide)
    (by decide) rfl

/-- Two permuted collections with pairwise-distinct timestamps have the same
timestamp-sorted view. -/
theorem sortByTimestamp_eq_of_perm {l₁ l₂ : List CommitRecord}
    (hperm : l₁.Perm l₂) (hnd : (l₁.map (fun c => c.timestamp)).Nodup) :
    sortByTimestamp l₁ = sortByTimestamp l₂ := by
  have hp₁ := List.perm_insertionSort (fun a b : CommitRecord => a.timestamp ≤ b.timestamp) l₁
  have hp₂ := List.perm_insertionSort (fun a b : CommitRecord => a.timestamp ≤ b.timestamp) l₂
  have ps : List.Perm (sortByTimestamp l₁) (sortByTimestamp l₂) := hp₁.trans (hperm.trans hp₂.symm)
  have strict : ∀ l : List CommitRecord, (l.map (fun c => c.timestamp)).Nodup →
      List.Pairwise (fun a b : CommitRecord => a.timestamp < b.timestamp) (sortByTimestamp l) := by
    intro l hl
    have hs := List.sorted_insertionSort (fun a b : CommitRecord => a.timestamp ≤ b.timestamp) l
    have hnds : ((sortByTimestamp l).map (fun c => c.timestamp)).Nodup :=
      ((List.perm_insertionSort _ l).map (fun c => c.timestamp)).nodup_iff.mpr hl
    have hne : List.Pairwise (fun a b : CommitRecord => a.timestamp ≠ b.timestamp) (sortByTimestamp l) :=
      List.pairwise_map.mp hnds
    exact (hs.and hne).imp (fun h => lt_of_le_of_ne h.1 h.2)
  exact List.eq_of_perm_of_sorted ps (strict l₁ hnd) (strict l₂ (hperm.map _ |>.nodup_iff.mp hnd))

/-- C3 (amended): the Branch Attribution Engine is deterministic (it is a
pure function of its input list), and it is order-insensitive provided all
record timestamps are distinct: on any permutation of a record set with
pairwise-distinct timestamps, every record receives the same branch.  The
claim as stated also asserts order-insensitivity when records share a
timestamp, which the counterexample refutes, so the distinctness hypothesis
is the minimal repair. -/
theorem attribution_perm_invariant_of_distinct_timestamps :
    ∀ (l₁ l₂ : List CommitRecord), l₁.Perm l₂ →
      (l₁.map (fun c => c.timestamp)).Nodup →
      ∀ (c : CommitRecord) (b : PyStr),
        ({ c with branch := b } ∈ determine_commit_branches l₁ ↔
          { c with branch := b } ∈ determine_commit_branches l₂) := by
  intro l₁ l₂ hperm hnd c b
  have hsort := sortByTimestamp_eq_of_perm hperm hnd
  simp only [determine_commit_branches, List.mem_map]
  constructor
  · rintro ⟨a, ha, hfa⟩
    exact ⟨a, hperm.mem_iff.mp ha, by rw [← hsort]; exact hfa⟩
  · rintro ⟨a, ha, hfa⟩
    exact ⟨a, hperm.mem_iff.mpr ha, by rw [hsort]; exact hfa⟩

theorem attribution_perm_invariant_of_distinct_timestamps_witness :
    { recA with branch := "feat".data } ∈ determine_commit_branches [recA, recB] ↔
      { recA with branch := "feat".data } ∈ determine_commit_branches [recB, recA] :=
  attribution_perm_invariant_of_distinct_timestamps [recA, recB] [recB, recA]
    (List.Perm.swap recB recA []) (by decide) recA "feat".data

/-- C3 counterexample: two merge records of branches alpha and beta and a
refs-less record, all at the same timestamp 100.  Reordering the two merge
records permutes the period list, so the refs-less record is assigned
alpha under one input order and beta under the other, refuting the claim
that reordering never changes assignments even with shared timestamps. -/
theorem attribution_order_sensitive_at_equal_timestamps :
    List.Perm [mrg1, mrg2, plainC] [mrg2, mrg1, plainC]
    ∧ (determine_commit_branches [mrg1, mrg2, plainC])[2]? =
        some { plainC with branch := "alpha".data }
    ∧ (determine_commit_branches [mrg2, mrg1, plainC])[2]? =
        some { plainC with branch := "beta".data } :=
  ⟨List.Perm.swap mrg2 mrg1 [plainC], by decide, by decide⟩

theorem fdiv_split (d : Int) :
    Int.fdiv d 3600 * 60 + Int.fdiv (Int.fmod d 3600) 60 = Int.fdiv d 60 := by
  rw [Int.fmod_eq_emod _ (by norm_num), Int.fdiv_eq_ediv _ (by norm_num),
    Int.fdiv_eq_ediv _ (by norm_num), Int.fdiv_eq_ediv _ (by norm_num)]
  omega

theorem entryFor_head (f : CommitRecord) (st pv : Int) (c : CommitRecord) :
    (entryFor f st pv c).headD [] = claimTimeStr f st pv c := by
  by_cases h : c = f
  · simp [entryFor, claimTimeStr, h]
  · simp only [entryFor, claimTimeStr, if_neg h, List.headD]
    rw [fdiv_split]
    rfl

/-- C7 (amended): the rendered records appear in ascending timestamp order
(first conjunct), and the time line of every rendered block follows the
specified format — the fixed literal for a record equal (as a whole value)
to the first record of the sorted list, and otherwise elapsed `HH:MM` since
the start plus the delta from the immediately preceding record truncated to
whole minutes (second conjunct, via `claimTimeStr`).  The claim as stated
reserves the fixed literal for the very first record only; the
counterexample shows a duplicate of the first record also renders the
literal, so the amendment extends the literal case to every record equal to
the first. -/
theorem render_time_lines_spec :
    (∀ cs : List CommitRecord,
      List.Sorted (fun a b : CommitRecord => a.timestamp ≤ b.timestamp) (sortByTimestamp cs))
    ∧ (∀ (f : CommitRecord) (st pv : Int) (l : List CommitRecord),
      (renderBlocks f st pv l).map (fun e => e.headD []) = claimTimeLines f st pv l) := by
  constructor
  · intro cs
    exact List.sorted_insertionSort _ cs
  · intro f st pv l
    induction l generalizing pv with
    | nil => rfl
    | cons c cs ih =>
      simp only [renderBlocks, List.map_cons, claimTimeLines]
      rw [entryFor_head, ih]

/-- C7 counterexample: rendering two identical records yields the fixed
literal time line for both blocks, whereas the claim demands the second
block show the delta form (which for this input would read the literal
followed by two spaces and a parenthesized plus-zero-minutes marker, a
different string, third conjunct). -/
theorem duplicate_record_time_line_literal :
    ((renderBlocks dupRec 0 0 (sortByTimestamp [dupRec, dupRec])).map (fun e => e.headD []))
        = ["time: 00:00".data, "time: 00:00".data]
    ∧ format_timeline_records [dupRec, dupRec] =
        "time: 00:00\ncommit: abc\nbranch: main\n\nm\n\n\ntime: 00:00\ncommit: abc\nbranch: main\n\nm\n\n".data
    ∧ ("time: 00:00".data : PyStr) ≠ "time: 00:00  (+0 mins)".data :=
  ⟨by decide, by decide, by decide⟩

theorem hasSub_of_startsWith {pat l : PyStr} (h : startsWithL pat l = true) :
    hasSub pat l = true := by
  cases l with
  | nil => simpa [hasSub] using h
  | cons c cs => simp [hasSub, h]

theorem headArrowScan_none : ∀ {l : PyStr}, hasSub headArrowPat l = false →
    headArrowScan l = none
  | [], _ => rfl
  | c :: cs, h => by
    rw [hasSub, Bool.or_eq_false_iff] at h
    simp only [headArrowScan, headArrowAt, h.1, Bool.false_eq_true, if_false]
    exact headArrowScan_none h.2

theorem originScan_none : ∀ {l : PyStr}, hasSub originPat l = false →
    originScan l = none
  | [], _ => rfl
  | c :: cs, h => by
    rw [hasSub, Bool.or_eq_false_iff] at h
    simp only [originScan, originAt, h.1, Bool.false_eq_true, if_false]
    exact originScan_none h.2

/-- The redundant substring guard before the `HEAD -> ` search drops out. -/
theorem headArrow_guard (r : PyStr) :
    (if hasSub headArrowPat r then headArrowScan r else none) = headArrowScan r := by
  cases h : hasSub headArrowPat r with
  | true => rfl
  | false => rw [headArrowScan_none h]; rfl

/-- The redundant substring guard before the `origin/` search drops out. -/
theorem origin_guard (r : PyStr) :
    (if hasSub originPat r then originScan r else none) = originScan r := by
  cases h : hasSub originPat r with
  | true => rfl
  | false => rw [originScan_none h]; rfl

theorem startsWithL_append_pat : ∀ (x pat l : PyStr),
    startsWithL (x ++ pat) l = true → hasSub pat l = true
  | [], pat, l, h => hasSub_of_startsWith h
  | a :: xs, pat, [], h => by cases h
  | a :: xs, pat, c :: cs, h => by
    rw [List.cons_append, startsWithL, Bool.and_eq_true] at h
    have := startsWithL_append_pat xs pat cs h.2
    simp [hasSub, this]

/-- An occurrence of `x ++ pat` contains an occurrence of `pat`. -/
theorem hasSub_drop_head : ∀ {l : PyStr} (x pat : PyStr),
    hasSub (x ++ pat) l = true → hasSub pat l = true
  | [], x, pat, h => by
    rw [hasSub] at h ⊢
    cases hxp : x ++ pat with
    | nil =>
      have : pat = [] := (List.append_eq_nil.mp hxp).2
      rw [this]
      rfl
    | cons a t =>
      rw [hxp] at h
      cases h
  | c :: cs, x, pat, h => by
    rw [hasSub, Bool.or_eq_true] at h
    rcases h with h | h
    · exact startsWithL_append_pat x pat _ h
    · have := hasSub_drop_head x pat h
      simp [hasSub, this]

theorem splitCh_ne_nil (c : Char) : ∀ l : PyStr, splitCh c l ≠ []
  | [] => by simp [splitCh]
  | x :: xs => by
    simp only [splitCh]
    cases h : splitCh c xs with
    | nil => simp
    | cons r rs => by_cases hx : x = c <;> simp [hx]

theorem splitCh_head (c : Char) : ∀ l : PyStr,
    (splitCh c l).headD [] = l.takeWhile (fun y => ¬ y = c)
  | [] => rfl
  | x :: xs => by
    have ih := splitCh_head c xs
    cases h : splitCh c xs with
    | nil => exact absurd h (splitCh_ne_nil c xs)
    | cons r rs =>
      rw [h] at ih
      simp only [splitCh, h]
      by_cases hx : x = c
      · subst hx
        simp [List.takeWhile_cons]
      · simp only [if_neg hx, List.headD, List.takeWhile_cons]
        simp only [List.headD] at ih
        simp [hx, ih]

theorem startsWith_takeWhile_ne : ∀ (pat l : PyStr), ',' ∉ pat →
    startsWithL pat (l.takeWhile (fun y => ¬ y = ',')) = startsWithL pat l
  | [], _, _ => rfl
  | _ :: _, [], _ => rfl
  | p :: ps, y :: ys, hc => by
    have hp : ¬ p = ',' := fun h => hc (h ▸ List.mem_cons_self p ps)
    have hps : ',' ∉ ps := fun h => hc (List.mem_cons_of_mem _ h)
    by_cases hy : y = ','
    · subst hy
      simp [List.takeWhile_cons, startsWithL, fun h => hp h]
    · have hcond : (decide ¬ y = ',') = true := by simp [hy]
      rw [List.takeWhile_cons, if_pos hcond]
      simp only [startsWithL]
      rw [startsWith_takeWhile_ne ps ys hps]

/-- For a nonempty comma-free pattern, an occurrence anywhere in the string
is an occurrence in one of its comma-separated tokens and conversely. -/
theorem any_token_hasSub : ∀ (pat l : PyStr), pat ≠ [] → ',' ∉ pat →
    ((splitCh ',' l).any (fun t => hasSub pat t)) = hasSub pat l
  | pat, [], hne, _ => by
    cases pat with
    | nil => exact absurd rfl hne
    | cons p ps => simp [splitCh, hasSub, startsWithL]
  | pat, x :: xs, hne, hc => by
    have ih := any_token_hasSub pat xs hne hc
    cases hsp : splitCh ',' xs with
    | nil => exact absurd hsp (splitCh_ne_nil ',' xs)
    | cons r rs =>
      have hr : r = xs.takeWhile (fun y => ¬ y = ',') := by
        have h := splitCh_head ',' xs
        rw [hsp] at h
        simpa using h
      rw [hsp, List.any_cons] at ih
      by_cases hx : x = ','
      · subst hx
        have hstep : splitCh ',' (',' :: xs) = [] :: r :: rs := by
          simp [splitCh, hsp]
        have h0 : hasSub pat [] = false := by
          cases pat with
          | nil => exact absurd rfl hne
          | cons p ps => rfl
        have hpfx : startsWithL pat (',' :: xs) = false := by
          cases pat with
          | nil => exact absurd rfl hne
          | cons p ps =>
            have hp : ¬ p = ',' := fun h => hc (h ▸ List.mem_cons_self p ps)
            simp [startsWithL, fun h => hp h]
        rw [hstep, List.any_cons, List.any_cons, h0, Bool.false_or, ih]
        rw [hasSub, hpfx, Bool.false_or]
      · have hstep : splitCh ',' (x :: xs) = (x :: r) :: rs := by
          simp [splitCh, hsp, hx]
        have hsw : startsWithL pat (x :: r) = startsWithL pat (x :: xs) := by
          cases pat with
          | nil => rfl
          | cons p ps =>
            have hps : ',' ∉ ps := fun h => hc (List.mem_cons_of_mem _ h)
            rw [hr]
            show (decide (p = x) && startsWithL ps (xs.takeWhile fun y => ¬ y = ',')) =
              (decide (p = x) && startsWithL ps xs)
            rw [startsWith_takeWhile_ne ps xs hps]
        rw [hstep, List.any_cons, hasSub, hasSub, hsw, Bool.or_assoc, ih]

theorem main_guard (r : PyStr) :
    (hasSub "origin/main".data r || hasSub "main".data r) =
      (splitCh ',' r).any (fun t => hasSub "main".data t) := by
  rw [any_token_hasSub "main".data r (by decide) (by decide)]
  cases h : hasSub "origin/main".data r with
  | false => rfl
  | true =>
    have hm : hasSub "main".data r = true := by
      refine hasSub_drop_head "origin/".data "main".data ?_
      exact h
    rw [hm]
    rfl

theorem master_guard (r : PyStr) :
    (hasSub "origin/master".data r || hasSub "master".data r) =
      (splitCh ',' r).any (fun t => hasSub "master".data t) := by
  rw [any_token_hasSub "master".data r (by decide) (by decide)]
  cases h : hasSub "origin/master".data r with
  | false => rfl
  | true =>
    have hm : hasSub "master".data r = true := by
      refine hasSub_drop_head "origin/".data "master".data ?_
      exact h
    rw [hm]
    rfl

/-- C5: the ref-extraction rule equals, on every refs string, the strict
priority chain of the five strategies as the specification words them
(`refsStrategyChain`); moreover the refs string listing HEAD arrow
feature-x and origin feature-x yields feature-x, and the empty refs string
yields no result. -/
theorem refs_extraction_priority_chain :
    (∀ refs : PyStr, extract_branch_from_refs refs = refsStrategyChain refs)
    ∧ extract_branch_from_refs "HEAD -> feature-x, origin/feature-x".data = some "feature-x".data
    ∧ extract_branch_from_refs [] = none := by
  refine ⟨?_, by decide, rfl⟩
  intro refs
  by_cases h0 : refs = []
  · subst h0
    decide
  · simp only [extract_branch_from_refs, refsStrategyChain, if_neg h0]
    rw [headArrow_guard, origin_guard, main_guard, master_guard]
    rfl

theorem dchar_spec (n : Nat) :
    isDigitC (dchar n) = true ∧ dval (dchar n) = n % 10 ∧ isPySpace (dchar n) = false
    ∧ decide ('+' = dchar n) = false ∧ decide ('-' = dchar n) = false
    ∧ decide (' ' = dchar n) = false
    ∧ ¬ dchar n = '+' ∧ ¬ dchar n = '-' ∧ ¬ dchar n = ' ' := by
  have h : n % 10 < 10 := Nat.mod_lt _ (by norm_num)
  unfold dchar isDigitC dval isPySpace
  set k := n % 10 with hk
  interval_cases k <;> exact (by decide)

theorem isDigitC_dchar (n : Nat) : isDigitC (dchar n) = true := (dchar_spec n).1

theorem dval_dchar (n : Nat) : dval (dchar n) = n % 10 := (dchar_spec n).2.1

theorem isPySpace_dchar (n : Nat) : isPySpace (dchar n) = false := (dchar_spec n).2.2.1

theorem plus_ne_dchar (n : Nat) : decide ('+' = dchar n) = false := (dchar_spec n).2.2.2.1

theorem minus_ne_dchar (n : Nat) : decide ('-' = dchar n) = false := (dchar_spec n).2.2.2.2.1

theorem space_ne_dchar (n : Nat) : decide (' ' = dchar n) = false := (dchar_spec n).2.2.2.2.2.1

theorem digits2 (n : Nat) (h : n ≤ 99) :
    dval (dchar (n / 10)) * 10 + dval (dchar n) = n := by
  rw [dval_dchar, dval_dchar]
  omega

theorem digits4 (n : Nat) (h : n ≤ 9999) :
    dval (dchar (n / 1000)) * 1000 + dval (dchar (n / 100)) * 100
      + dval (dchar (n / 10)) * 10 + dval (dchar n) = n := by
  rw [dval_dchar, dval_dchar, dval_dchar, dval_dchar]
  omega

theorem pytrim_of_ends (a b : Char) (m : PyStr)
    (ha : isPySpace a = false) (hb : isPySpace b = false) :
    pytrim (a :: (m ++ [b])) = a :: (m ++ [b]) := by
  unfold pytrim
  rw [List.dropWhile_cons, ha]
  simp only [Bool.false_eq_true, if_false]
  rw [show (a :: (m ++ [b])).reverse = b :: (m.reverse ++ [a]) from by simp]
  rw [List.dropWhile_cons, hb]
  simp

theorem takeWhile_all_append (p : Char → Bool) : ∀ (u v : PyStr), (∀ c ∈ u, p c = true) →
    (u ++ v).takeWhile p = u ++ v.takeWhile p
  | [], _, _ => rfl
  | c :: cs, v, h => by
    rw [List.cons_append, List.takeWhile_cons, h c (List.mem_cons_self c cs)]
    rw [takeWhile_all_append p cs v (fun x hx => h x (List.mem_cons_of_mem _ hx))]
    rfl

theorem dropWhile_all_append (p : Char → Bool) : ∀ (u v : PyStr), (∀ c ∈ u, p c = true) →
    (u ++ v).dropWhile p = v.dropWhile p
  | [], _, _ => rfl
  | c :: cs, v, h => by
    rw [List.cons_append, List.dropWhile_cons, h c (List.mem_cons_self c cs)]
    rw [dropWhile_all_append p cs v (fun x hx => h x (List.mem_cons_of_mem _ hx))]
    rfl

theorem rsplitSpace_append (a t : PyStr) (ht : ∀ c ∈ t, ¬ c = ' ') :
    rsplitSpace (a ++ ' ' :: t) = some (a, t) := by
  unfold rsplitSpace
  have hrev : (a ++ ' ' :: t).reverse = t.reverse ++ ' ' :: a.reverse := by simp
  have hmem : ∀ c ∈ t.reverse, (decide ¬ c = ' ') = true := by
    intro c hc
    simp [ht c (List.mem_reverse.mp hc)]
  rw [hrev, takeWhile_all_append _ t.reverse (' ' :: a.reverse) hmem,
    dropWhile_all_append _ t.reverse (' ' :: a.reverse) hmem]
  rw [List.takeWhile_cons, List.dropWhile_cons]
  simp

theorem fromiso_mkDt (y mo d h mi s : Nat)
    (hy : 1 ≤ y) (hy2 : y ≤ 9999) (hmo : 1 ≤ mo) (hmo2 : mo ≤ 12)
    (hd : 1 ≤ d) (hd2 : d ≤ daysInMonth y mo) (hh : h ≤ 23) (hmi : mi ≤ 59) (hs : s ≤ 59) :
    fromiso (mkDtChars y mo d h mi s) = some (toSecs y mo d h mi s) := by
  have e4 := digits4 y hy2
  have e2mo := digits2 mo (by omega)
  have e2d := digits2 d (by
    have : daysInMonth y mo ≤ 31 := by
      unfold daysInMonth
      split
      · split <;> omega
      · split <;> omega
    omega)
  have e2h := digits2 h (by omega)
  have e2mi := digits2 mi (by omega)
  have e2s := digits2 s (by omega)
  simp only [fromiso, mkDtChars]
  rw [if_pos (by simp [isDigitC_dchar])]
  rw [e4, e2mo, e2d, e2h, e2mi, e2s]
  rw [if_pos]
  simp only [Bool.and_eq_true, decide_eq_true_eq]
  refine ⟨⟨⟨⟨⟨⟨⟨hy, hmo⟩, hmo2⟩, hd⟩, hd2⟩, hh⟩, hmi⟩, hs⟩

theorem pyInt_two_digits (n : Nat) (hn : n ≤ 99) :
    pyInt [dchar (n / 10), dchar n] = some (n : Int) := by
  have htrim : pytrim [dchar (n / 10), dchar n] = [dchar (n / 10), dchar n] :=
    pytrim_of_ends (dchar (n / 10)) (dchar n) [] (isPySpace_dchar _) (isPySpace_dchar _)
  have hplus : ¬ dchar (n / 10) = '+' := (dchar_spec (n / 10)).2.2.2.2.2.2.1
  have hminus : ¬ dchar (n / 10) = '-' := (dchar_spec (n / 10)).2.2.2.2.2.2.2.1
  simp only [pyInt, htrim]
  rw [if_neg hplus, if_neg hminus]
  unfold digitsVal
  rw [if_pos (by simp [isDigitC_dchar])]
  simp only [List.foldl_cons, List.foldl_nil, dval_dchar]
  congr 1
  omega

theorem hasSub_append_left {pat t : PyStr} : ∀ (x : PyStr), hasSub pat t = true → hasSub pat (x ++ t) = true
  | [], h => by simpa using h
  | c :: cs, h => by
    rw [List.cons_append, hasSub, hasSub_append_left cs h, Bool.or_true]

theorem dchar_ne_space2 (n : Nat) : ¬ dchar n = ' ' := (dchar_spec n).2.2.2.2.2.2.2.2

/-- C6: for every valid timestamp string of the form
`YYYY-MM-DD HH:MM:SS ±HHMM` — built from in-range calendar components with
a valid offset, and whose normalized instant is representable (`datetime`
years 1 to 9999; per §4.1 of the specification a string the normalizer
cannot convert yields no result and is not a valid timestamp) — the
Timestamp Normalizer returns the timezone-free UTC instant equal to the
naive date-time minus the signed offset; and the same string without an
offset part is returned unchanged as already-UTC.  The witness instantiates
the examples of the claim: offset plus 0200 gives the naive value minus
2 hours and offset minus 0500 gives the naive value plus 5 hours. -/
theorem parse_timestamp_normalizes_offset :
    ∀ (y mo d h mi s : Nat) (sgn : Bool) (oh om : Nat),
      1 ≤ y → y ≤ 9999 → 1 ≤ mo → mo ≤ 12 → 1 ≤ d → d ≤ daysInMonth y mo →
      h ≤ 23 → mi ≤ 59 → s ≤ 59 → oh ≤ 23 → om ≤ 59 →
      0 ≤ toSecs y mo d h mi s - (if sgn then 1 else -1) * ((oh : Int) * 60 + (om : Int)) * 60 →
      toSecs y mo d h mi s - (if sgn then 1 else -1) * ((oh : Int) * 60 + (om : Int)) * 60 ≤ maxDatetimeSecs →
      parse_timestamp (mkTsChars y mo d h mi s sgn oh om)
          = some (toSecs y mo d h mi s - (if sgn then 1 else -1) * ((oh : Int) * 60 + (om : Int)) * 60)
        ∧ parse_timestamp (mkDtChars y mo d h mi s) = some (toSecs y mo d h mi s) := by
  intro y mo d h mi s sgn oh om hy hy2 hmo hmo2 hd hd2 hh hmi hs hoh hom hlo hhi
  have hshape : mkTsChars y mo d h mi s sgn oh om =
      dchar (y / 1000) :: ([dchar (y / 100), dchar (y / 10), dchar y, '-',
        dchar (mo / 10), dchar mo, '-', dchar (d / 10), dchar d, ' ',
        dchar (h / 10), dchar h, ':', dchar (mi / 10), dchar mi, ':',
        dchar (s / 10), dchar s, ' ', (if sgn then '+' else '-'),
        dchar (oh / 10), dchar oh, dchar (om / 10)] ++ [dchar om]) := by
    simp [mkTsChars, mkDtChars, tzChars]
  have htrim : pytrim (mkTsChars y mo d h mi s sgn oh om) = mkTsChars y mo d h mi s sgn oh om := by
    rw [hshape]
    exact pytrim_of_ends _ _ _ (isPySpace_dchar _) (isPySpace_dchar _)
  have hmemtz : ∀ c ∈ tzChars sgn oh om, ¬ c = ' ' := by
    intro c hc
    simp only [tzChars, List.mem_cons, List.not_mem_nil, or_false] at hc
    rcases hc with rfl | rfl | rfl | rfl | rfl
    · cases sgn <;> decide
    · exact dchar_ne_space2 _
    · exact dchar_ne_space2 _
    · exact dchar_ne_space2 _
    · exact dchar_ne_space2 _
  have hsplit : rsplitSpace (mkTsChars y mo d h mi s sgn oh om)
      = some (mkDtChars y mo d h mi s, tzChars sgn oh om) :=
    rsplitSpace_append _ _ hmemtz
  have hiso := fromiso_mkDt y mo d h mi s hy hy2 hmo hmo2 hd hd2 hh hmi hs
  have hoh99 : oh ≤ 99 := by omega
  have hom99 : om ≤ 99 := by omega
  constructor
  · cases sgn with
    | true =>
      have hlo' : 0 ≤ toSecs y mo d h mi s - 1 * ((oh : Int) * 60 + (om : Int)) * 60 := hlo
      have hhi' : toSecs y mo d h mi s - 1 * ((oh : Int) * 60 + (om : Int)) * 60 ≤ maxDatetimeSecs := hhi
      have hsub1 : (hasSub [' ', '+'] (mkTsChars y mo d h mi s true oh om)
          || hasSub [' ', '-'] (mkTsChars y mo d h mi s true oh om)) = true := by
        have hp : hasSub [' ', '+'] (mkTsChars y mo d h mi s true oh om) = true :=
          hasSub_append_left _ (hasSub_of_startsWith rfl)
        rw [hp, Bool.true_or]
      have hsgn : (if startsWithL ['+'] (tzChars true oh om) = true then (1 : Int) else -1) = 1 := rfl
      have htake : List.take 2 (List.drop 1 (tzChars true oh om)) = [dchar (oh / 10), dchar oh] := rfl
      have hdrop : List.drop 2 (List.drop 1 (tzChars true oh om)) = [dchar (om / 10), dchar om] := rfl
      simp only [parse_timestamp]
      rw [htrim, if_pos hsub1]
      simp only [hsplit, hiso]
      rw [hsgn]
      simp only [htake, hdrop, pyInt_two_digits oh hoh99, pyInt_two_digits om hom99]
      rw [if_pos (by simp only [Bool.and_eq_true, decide_eq_true_eq]; omega)]
      rw [if_pos (by simp only [Bool.and_eq_true, decide_eq_true_eq]; exact ⟨hlo', hhi'⟩)]
      rfl
    | false =>
      have hlo' : 0 ≤ toSecs y mo d h mi s - (-1) * ((oh : Int) * 60 + (om : Int)) * 60 := hlo
      have hhi' : toSecs y mo d h mi s - (-1) * ((oh : Int) * 60 + (om : Int)) * 60 ≤ maxDatetimeSecs := hhi
      have hsub1 : (hasSub [' ', '+'] (mkTsChars y mo d h mi s false oh om)
          || hasSub [' ', '-'] (mkTsChars y mo d h mi s false oh om)) = true := by
        have hp : hasSub [' ', '-'] (mkTsChars y mo d h mi s false oh om) = true :=
          hasSub_append_left _ (hasSub_of_startsWith rfl)
        rw [hp, Bool.or_true]
      have hsgn : (if startsWithL ['+'] (tzChars false oh om) = true then (1 : Int) else -1) = -1 := rfl
      have htake : List.take 2 (List.drop 1 (tzChars false oh om)) = [dchar (oh / 10), dchar oh] := rfl
      have hdrop : List.drop 2 (List.drop 1 (tzChars false oh om)) = [dchar (om / 10), dchar om] := rfl
      simp only [parse_timestamp]
      rw [htrim, if_pos hsub1]
      simp only [hsplit, hiso]
      rw [hsgn]
      simp only [htake, hdrop, pyInt_two_digits oh hoh99, pyInt_two_digits om hom99]
      rw [if_pos (by simp only [Bool.and_eq_true, decide_eq_true_eq]; omega)]
      rw [if_pos (by simp only [Bool.and_eq_true, decide_eq_true_eq]; exact ⟨hlo', hhi'⟩)]
      rfl
  · have hshape2 : mkDtChars y mo d h mi s =
        dchar (y / 1000) :: ([dchar (y / 100), dchar (y / 10), dchar y, '-',
          dchar (mo / 10), dchar mo, '-', dchar (d / 10), dchar d, ' ',
          dchar (h / 10), dchar h, ':', dchar (mi / 10), dchar mi, ':',
          dchar (s / 10)] ++ [dchar s]) := by simp [mkDtChars]
    have htrim2 : pytrim (mkDtChars y mo d h mi s) = mkDtChars y mo d h mi s := by
      rw [hshape2]
      exact pytrim_of_ends _ _ _ (isPySpace_dchar _) (isPySpace_dchar _)
    have hplus : hasSub [' ', '+'] (mkDtChars y mo d h mi s) = false := by
      simp [mkDtChars, hasSub, startsWithL, space_ne_dchar, plus_ne_dchar]
    have hminus : hasSub [' ', '-'] (mkDtChars y mo d h mi s) = false := by
      simp [mkDtChars, hasSub, startsWithL, space_ne_dchar, minus_ne_dchar]
    simp only [parse_timestamp]
    rw [htrim2, hplus, hminus]
    simp only [Bool.or_self, Bool.false_eq_true, if_false]
    exact hiso

theorem parse_timestamp_normalizes_offset_witness :
    parse_timestamp (mkTsChars 2025 1 2 12 0 0 true 2 0) = some (toSecs 2025 1 2 12 0 0 - 7200)
    ∧ parse_timestamp (mkTsChars 2025 1 2 12 0 0 false 5 0) = some (toSecs 2025 1 2 12 0 0 + 18000)
    ∧ parse_timestamp (mkDtChars 2025 1 2 12 0 0) = some (toSecs 2025 1 2 12 0 0) := by
  have h1 := parse_timestamp_normalizes_offset 2025 1 2 12 0 0 true 2 0 (by norm_num) (by norm_num)
    (by norm_num) (by norm_num) (by norm_num) (by decide) (by norm_num) (by norm_num) (by norm_num)
    (by norm_num) (by norm_num) (by decide) (by decide)
  have h2 := parse_timestamp_normalizes_offset 2025 1 2 12 0 0 false 5 0 (by norm_num) (by norm_num)
    (by norm_num) (by norm_num) (by norm_num) (by decide) (by norm_num) (by norm_num) (by norm_num)
    (by norm_num) (by norm_num) (by decide) (by decide)
  exact ⟨h1.1.trans (by decide), h2.1.trans (by decide), h1.2⟩

/-- Stepping the outer parser loop at a line accepted as a header: at the
top level the only tests are separator presence, at least 3 fields, and a
parseable timestamp — the 40-character test does not occur here. -/
theorem parseLinesF_cons_header (fuel : Nat) (l : PyStr) (rest : List PyStr) (ts : Int)
    (hsep : (pytrim l).contains sepChar = true)
    (hlen : 3 ≤ (splitCh sepChar (pytrim l)).length)
    (hts : parse_timestamp ((splitCh sepChar (pytrim l)).getD 1 []) = some ts) :
    parseLinesF (fuel + 1) (l :: rest) =
      CommitRecord.mk ((splitCh sepChar (pytrim l)).getD 0 []) ts
          ((splitCh sepChar (pytrim l)).getD 2 [])
          (if 3 < (splitCh sepChar (pytrim l)).length then (splitCh sepChar (pytrim l)).getD 3 [] else [])
          (collectFiles rest).1 []
        :: parseLinesF fuel (collectFiles rest).2 := by
  have hne : pytrim l ≠ [] := by
    intro h
    rw [h] at hsep
    exact absurd hsep (by decide)
  simp only [parseLinesF, if_neg hne, hsep, if_pos hlen, hts]
  simp

/-- C9: a separator-bearing line with exactly 3 separator-delimited fields
(and a parseable timestamp) is accepted as a header, and the record is
built with its refs string taken to be the empty string. -/
theorem three_field_header_accepted (l : PyStr) (rest : List PyStr) (ts : Int)
    (hsep : (pytrim l).contains sepChar = true)
    (hlen : (splitCh sepChar (pytrim l)).length = 3)
    (hts : parse_timestamp ((splitCh sepChar (pytrim l)).getD 1 []) = some ts) :
    (parseLines (l :: rest)).head? =
      some (CommitRecord.mk ((splitCh sepChar (pytrim l)).getD 0 []) ts
        ((splitCh sepChar (pytrim l)).getD 2 []) [] (collectFiles rest).1 []) := by
  have h := parseLinesF_cons_header rest.length l rest ts hsep (by omega) hts
  show (parseLinesF (rest.length + 1) (l :: rest)).head? = _
  rw [h]
  simp [hlen]

theorem three_field_header_accepted_witness :
    (pytrim "aaa∞2020-01-01 00:00:00∞hello".data).contains sepChar = true
    ∧ (parseLines ["aaa∞2020-01-01 00:00:00∞hello".data]).head? =
        some (CommitRecord.mk "aaa".data (toSecs 2020 1 1 0 0 0) "hello".data [] [] []) := by
  refine ⟨by decide, ?_⟩
  have h := three_field_header_accepted "aaa∞2020-01-01 00:00:00∞hello".data []
    (toSecs 2020 1 1 0 0 0) (by decide) (by decide) (by decide)
  exact h

/-- C1 (amended): the two classification sites of the Record Parser use
different discriminators.  When terminating file-list accumulation, a line
stops the file list iff it contains the separator and its first field has
exactly 40 characters (second conjunct); but when classifying a line at the
top level, any separator-bearing line with at least 3 fields and a
parseable timestamp starts a record, with no 40-character test (first
conjunct).  The claim as stated — that the separator-plus-40-character
discriminator is applied uniformly at both sites, so a separator-bearing
line with a short first field is never treated as a header — is refuted by
the counterexample. -/
theorem header_discriminator_site_dependent :
    (∀ (l : PyStr) (rest : List PyStr) (ts : Int),
      (pytrim l).contains sepChar = true →
      3 ≤ (splitCh sepChar (pytrim l)).length →
      parse_timestamp ((splitCh sepChar (pytrim l)).getD 1 []) = some ts →
      (parseLines (l :: rest)).head? =
        some (CommitRecord.mk ((splitCh sepChar (pytrim l)).getD 0 []) ts
          ((splitCh sepChar (pytrim l)).getD 2 [])
          (if 3 < (splitCh sepChar (pytrim l)).length then (splitCh sepChar (pytrim l)).getD 3 [] else [])
          (collectFiles rest).1 []))
    ∧ (∀ (l : PyStr) (rest : List PyStr),
      pytrim l ≠ [] →
      ¬ ((pytrim l).contains sepChar = true ∧ ((splitCh sepChar (pytrim l)).getD 0 []).length = 40) →
      collectFiles (l :: rest) = (pytrim l :: (collectFiles rest).1, (collectFiles rest).2)) := by
  constructor
  · intro l rest ts hsep hlen hts
    have h := parseLinesF_cons_header rest.length l rest ts hsep hlen hts
    show (parseLinesF (rest.length + 1) (l :: rest)).head? = _
    rw [h]
    rfl
  · intro l rest hne hstop
    simp only [collectFiles, if_neg hne]
    rw [if_neg]
    intro hc
    rw [Bool.and_eq_true] at hc
    exact hstop ⟨hc.1, by simpa using hc.2⟩

theorem header_discriminator_site_dependent_witness :
    (parseLines ["ab∞2020-01-01 00:00:00∞msg".data, "f.txt".data]).head? =
        some (CommitRecord.mk "ab".data (toSecs 2020 1 1 0 0 0) "msg".data [] ["f.txt".data] [])
    ∧ collectFiles ["ab∞2020-01-01 00:00:00∞msg".data] =
        (["ab∞2020-01-01 00:00:00∞msg".data], []) := by
  constructor
  · exact header_discriminator_site_dependent.1 "ab∞2020-01-01 00:00:00∞msg".data
      ["f.txt".data] (toSecs 2020 1 1 0 0 0) (by decide) (by decide) (by decide)
  · exact header_discriminator_site_dependent.2 "ab∞2020-01-01 00:00:00∞msg".data []
      (by decide) (by decide)

/-- C1 counterexample: a log text whose only separator-bearing line has a
2-character first field is parsed into a record with hash ab — the line is
treated as a header at the top level, contradicting the claim that such a
line is never treated as a header. -/
theorem short_hash_header_accepted_at_top_level :
    parse_commits "ab∞2020-01-01 00:00:00∞msg\nf.txt".data =
      [CommitRecord.mk "ab".data (toSecs 2020 1 1 0 0 0) "msg".data [] ["f.txt".data] mainStr] := by
  decide

/-- C8: empty raw log text (which is also what the failure path of the
external log command supplies) produces the report consisting exactly of
the literal text No commits found, and an empty record collection, hence no
file list entries. -/
theorem empty_input_no_commits_report :
    format_timeline [] = "No commits found".data ∧ parse_commits [] = [] :=
  ⟨rfl, rfl⟩

/-- C10: the Branch Attribution Engine mutates only the branch field — the
collection keeps its length, and at every position the hash, timestamp,
message, refs and files of the record are unchanged. -/
theorem attribution_frame_preserving (cs : List CommitRecord) (i : Nat) :
    (determine_commit_branches cs).length = cs.length
    ∧ ((determine_commit_branches cs)[i]?).map (fun c => c.hash) = (cs[i]?).map (fun c => c.hash)
    ∧ ((determine_commit_branches cs)[i]?).map (fun c => c.timestamp) = (cs[i]?).map (fun c => c.timestamp)
    ∧ ((determine_commit_branches cs)[i]?).map (fun c => c.message) = (cs[i]?).map (fun c => c.message)
    ∧ ((determine_commit_branches cs)[i]?).map (fun c => c.refs) = (cs[i]?).map (fun c => c.refs)
    ∧ ((determine_commit_branches cs)[i]?).map (fun c => c.files) = (cs[i]?).map (fun c => c.files) := by
  unfold determine_commit_branches
  refine ⟨List.length_map _ _, ?_, ?_, ?_, ?_, ?_⟩ <;>
    · rw [List.getElem?_map, Option.map_map]
      cases cs[i]? <;> rfl
